import Mathlib

/-!
Verification of the document-QA backend (chunker, vector store, theme
identifier, per-document QA, synthesizer, OCR adapter) by a shallow
embedding of `backend/app/services/*.py` into Lean.

Python strings are modelled as `List Char`.  External effects (the
generative-model call, JSON parsing of its untrusted payload, the
filesystem, the vector collection's add/get, and uuid generation) are
modelled as explicit outcome parameters: each Python `try` block whose
failure modes are decided outside the repository takes the outcome of
the external step as an argument, and the surrounding control flow is
translated faithfully from the source.
-/

set_option maxHeartbeats 1000000
set_option linter.unusedVariables false

abbrev Str := List Char

/-! ## Generic string splitting (Python `str.split(sep)` semantics) -/

/-- Segments of a character list between separator characters (characters
satisfying `p`); empty segments are kept, matching Python `str.split(sep)`
with an explicit separator. -/
def splitP (p : Char → Bool) : List Char → List (List Char)
  | [] => [[]]
  | c :: rest =>
    if p c then [] :: splitP p rest
    else
      match splitP p rest with
      | [] => [[c]]
      | w :: ws => (c :: w) :: ws

/-- Python `s.split(sep)` for a single separator character. -/
def splitOn (sep : Char) (s : List Char) : List (List Char) :=
  splitP (fun c => c == sep) s

/-- Python `sep.join(list_of_strings)`. -/
def joinSep (sep : Char) : List (List Char) → List Char
  | [] => []
  | [w] => w
  | w :: ws => w ++ sep :: joinSep sep ws

/-- Python `needle in hay` on strings: substring containment. -/
def containsSub (needle hay : Str) : Bool := decide (needle <:+: hay)

/-! ## Chunker: `vector_store._split_text`

The Python function builds chunks imperatively with mutable
`chunks` / `current_chunk` / `current_paragraph`; the embedding threads
that state explicitly.  `addPiece` is the repeated pattern
`if len(current_chunk) + len(x) + 1 > chunk_size: flush else: glue with sep`
(lines 79-84, 90-94, 96-101 of vector_store.py). -/

structure ChunkSt where
  chunks : List Str
  cur : Str
deriving DecidableEq

/-- Append a finished piece (a paragraph or a word-group) to the running
chunk, flushing the running chunk first when the glued result would exceed
`chunkSize`.  `sep` is `'\n'` for paragraphs and `' '` for word-groups. -/
def addPiece (chunkSize : Nat) (sep : Char) (st : ChunkSt) (piece : Str) : ChunkSt :=
  if chunkSize < st.cur.length + piece.length + 1 then
    ⟨st.chunks ++ [st.cur], piece⟩
  else if st.cur.isEmpty then
    ⟨st.chunks, piece⟩
  else
    ⟨st.chunks, st.cur ++ sep :: piece⟩

/-- Body of `for word in words` (vector_store.py lines 76-86): the pair is
`(outer chunk state, current_paragraph)`. -/
def procWord (chunkSize : Nat) (s : ChunkSt × Str) (word : Str) : ChunkSt × Str :=
  if chunkSize < s.2.length + word.length + 1 then
    (addPiece chunkSize ' ' s.1 s.2, word)
  else if s.2.isEmpty then
    (s.1, word)
  else
    (s.1, s.2 ++ ' ' :: word)

/-- Handling of a paragraph longer than `chunkSize` (lines 72-94):
split it on spaces, pack the words greedily, then add the trailing
`current_paragraph` if non-empty. -/
def procLongParagraph (chunkSize : Nat) (st : ChunkSt) (paragraph : Str) : ChunkSt :=
  let r := (splitOn ' ' paragraph).foldl (procWord chunkSize) (st, [])
  if r.2.isEmpty then r.1 else addPiece chunkSize ' ' r.1 r.2

/-- Body of `for paragraph in paragraphs` (lines 70-101). -/
def procParagraph (chunkSize : Nat) (st : ChunkSt) (paragraph : Str) : ChunkSt :=
  if chunkSize < paragraph.length then procLongParagraph chunkSize st paragraph
  else addPiece chunkSize '\n' st paragraph

/-- Chunks before the overlap pass (lines 62-105): split on newlines, pack,
and append the final running chunk if non-empty. -/
def baseChunks (text : Str) (chunkSize : Nat) : List Str :=
  let st := (splitOn '\n' text).foldl (procParagraph chunkSize) ⟨[], []⟩
  if st.cur.isEmpty then st.chunks else st.chunks ++ [st.cur]

/-- `prev_chunk[-overlap:] if len(prev_chunk) > overlap else prev_chunk`
(line 116); for `ov > 0` both branches equal dropping all but the last
`ov` characters. -/
def copiedTail (ov : Nat) (prev : Str) : Str := prev.drop (prev.length - ov)

/-- The overlap pass over `chunks[1:]` (lines 110-117), carrying the
previous base chunk. -/
def overlapTail (ov : Nat) : Str → List Str → List Str
  | _, [] => []
  | prev, c :: cs => (copiedTail ov prev ++ c) :: overlapTail ov c cs

/-- `vector_store._split_text(text, chunk_size, overlap)` (lines 50-120). -/
def splitText (text : Str) (chunkSize ov : Nat) : List Str :=
  if text.isEmpty then []
  else
    let chunks := baseChunks text chunkSize
    if 0 < ov ∧ 1 < chunks.length then
      match chunks with
      | [] => []
      | c :: cs => c :: overlapTail ov c cs
    else chunks

/-- Removing from each chunk `i > 0` the overlap characters copied from
chunk `i-1` (the stripped previous chunk is the previous base chunk, so the
copied part has length `min ov (length prev)`). -/
def stripAfter (ov : Nat) : Str → List Str → List Str
  | _, [] => []
  | prev, c :: cs => c.drop (min ov prev.length) :: stripAfter ov (c.drop (min ov prev.length)) cs

/-- Strip the copied overlap from every chunk after the first. -/
def stripOverlaps (ov : Nat) : List Str → List Str
  | [] => []
  | c :: cs => c :: stripAfter ov c cs

/-! ## Whitespace-delimited words of a text

The chunker first splits on `'\n'`, then (for long paragraphs) on `' '`;
the words of a text are the segments between those two separator
characters.  Used to state what the chunker preserves. -/

def isSepCh (c : Char) : Bool := c == '\n' || c == ' '

/-- All `'\n'` / `' '`-delimited segments of a text, empty ones included. -/
def textWords (t : Str) : List Str := ((splitOn '\n' t).map (splitOn ' ')).flatten

/-- The non-empty whitespace-delimited words of a text. -/
def neWords (t : Str) : List Str := (textWords t).filter (fun w => !w.isEmpty)

/-- Words collected from a chunking state, in order. -/
def stWords (st : ChunkSt) : List Str := (st.chunks.map neWords).flatten ++ neWords st.cur

/-- Words collected from the inner word-loop state. -/
def innerWords (s : ChunkSt × Str) : List Str := stWords s.1 ++ neWords s.2

/-- A chunk is within the size budget, or is a single (necessarily
whitespace-free) word of the input text. -/
def goodPiece (t : Str) (cs : Nat) (c : Str) : Prop := c.length ≤ cs ∨ c ∈ neWords t

def goodSt (t : Str) (cs : Nat) (st : ChunkSt) : Prop :=
  (∀ c ∈ st.chunks, goodPiece t cs c) ∧ goodPiece t cs st.cur

/-! ## Data model of query-time artifacts -/

/-- A per-document answer dict (`{'id', 'filename', 'response', 'citations',
'error'}`); `Option` fields model `dict.get` on possibly missing keys. -/
structure Citation where
  text : Str
  location : Str
deriving DecidableEq

structure DocResponse where
  id : Option Str
  filename : Option Str
  response : Option Str
  citations : List Citation
  error : Option Str
deriving DecidableEq

/-- Document metadata as seen by the query path (`get_document_by_id`
result). -/
structure DocMeta where
  id : Option Str
  filename : Option Str
  page_count : Option Nat
deriving DecidableEq

/-- A theme dict as produced by the model / the fallback
(`theme_identifier.py`). -/
structure RawTheme where
  id : Option Str
  name : Str
  description : Str
  supporting_docs : List Str
deriving DecidableEq

structure ThemeAnalysis where
  theme_name : Str
  explanation : Str
  supporting_evidence : Str
  relevance_to_query : Str
deriving DecidableEq

structure SynthResponse where
  synthesized_response : Str
  themes_analysis : List ThemeAnalysis
  error : Option Str
deriving DecidableEq

/-! ## Theme identifier: `theme_identifier.identify_themes` -/

/-- Outcome of the model call plus the JSON-recovery chain of
`identify_themes` (lines 80-108): either some exception was raised inside
the `try` block, or the chain completed with a themes list (`[]` both for
a parse failure and for a reply without usable themes). -/
inductive ThemeOutcome where
  | exn (msg : Str)
  | parsed (themes : List RawTheme)
deriving DecidableEq

/-- `[resp.get('id') for resp in document_responses if resp.get('id')]`
(line 130): ids of the input answers whose id is present and non-empty. -/
def fallbackSupportingDocs (rs : List DocResponse) : List Str :=
  rs.filterMap (fun r =>
    match r.id with
    | some s => if s.isEmpty then none else some s
    | none => none)

/-- Lines 113-115: give every theme with a missing/empty id a generated id
(`gen` models the per-theme `uuid.uuid4()` draws). -/
def assignThemeIds (gen : Nat → Str) (ts : List RawTheme) : List RawTheme :=
  ts.enum.map (fun p =>
    match p.2.id with
    | some s => if s.isEmpty then { p.2 with id := some (gen p.1) } else p.2
    | none => { p.2 with id := some (gen p.1) })

/-- `identify_themes(document_responses)` (theme_identifier.py lines
18-139). -/
def identifyThemes (rs : List DocResponse) (gen : Nat → Str)
    (outcome : ThemeOutcome) : List RawTheme :=
  match outcome with
  | .exn _ => []
  | .parsed ts =>
    if ts.isEmpty then
      [{ id := some (gen 0),
         name := "Document Analysis".toList,
         description := "Analysis of document content related to the query.".toList,
         supporting_docs := fallbackSupportingDocs rs }]
    else assignThemeIds gen ts

/-! ## Per-document QA: `llm_service.query_document_with_llm` -/

/-- `'Connection' in error_msg or 'timeout' in error_msg.lower() or
'network' in error_msg.lower()` (llm_service.py line 226). -/
def connectivityError (msg : Str) : Bool :=
  containsSub "Connection".toList msg
    || containsSub "timeout".toList (msg.map Char.toLower)
    || containsSub "network".toList (msg.map Char.toLower)

/-- `'rate_limit' in error_msg.lower() or 'too large' in error_msg.lower()`
(line 242). -/
def rateLimitError (msg : Str) : Bool :=
  containsSub "rate_limit".toList (msg.map Char.toLower)
    || containsSub "too large".toList (msg.map Char.toLower)

/-- `doc_text[:500] + "..." if len(doc_text) > 500 else doc_text`
(line 231). -/
def docPreview (t : Str) : Str :=
  if 500 < t.length then t.take 500 ++ "...".toList else t

/-- Outcome of the model call plus the JSON-recovery chain of
`query_document_with_llm` (lines 174-211): an exception from the call, or
the `response_data` fields the chain produced. -/
inductive QDocOutcome where
  | exn (msg : Str)
  | parsed (resp : Str) (cits : List Citation)
deriving DecidableEq

/-- `query_document_with_llm(query, doc_text, doc_metadata)` (lines
116-258). -/
def queryDocumentWithLLM (query docText : Str) (meta : DocMeta)
    (outcome : QDocOutcome) : DocResponse :=
  match outcome with
  | .parsed r c =>
    { id := meta.id, filename := some (meta.filename.getD "Unknown".toList),
      response := some r, citations := c, error := none }
  | .exn msg =>
    if connectivityError msg then
      { id := meta.id, filename := some (meta.filename.getD "Unknown".toList),
        response := some ("This document contains information that might be relevant to your query. Here\x27s a preview: ".toList
          ++ docPreview docText),
        citations := [{ text := docPreview docText, location := "Document preview".toList }],
        error := some "Connection issue - displaying document preview only".toList }
    else if rateLimitError msg then
      { id := meta.id, filename := some (meta.filename.getD "Unknown".toList),
        response := some "The document is too large for processing with the current API limitations. Try a smaller document or upgrade the API tier.".toList,
        citations := [], error := some msg }
    else
      { id := meta.id, filename := some (meta.filename.getD "Unknown".toList),
        response := some ("Error querying document: ".toList ++ msg),
        citations := [], error := some msg }

/-! ## Per-document loop: `llm_service.generate_document_responses` -/

/-- What happens for one document id inside the `for doc_id in
selected_doc_ids` loop (lines 65-107): metadata missing (skip), empty text
(skip), the normal path through `query_document_with_llm`, or an exception
raised while processing this document (the handler re-reads metadata for
the filename). -/
inductive DocStep where
  | metaMissing
  | noText (meta : DocMeta)
  | run (meta : DocMeta) (docText : Str) (outcome : QDocOutcome)
  | raised (msg : Str) (metaAfter : Option DocMeta)
deriving DecidableEq

/-- The error entry appended by the per-document `except` handler (lines
94-107). -/
def errorEntry (docId : Str) (msg : Str) (metaAfter : Option DocMeta) : DocResponse :=
  { id := some docId,
    filename := some (match metaAfter with
      | some m => m.filename.getD "Unknown".toList
      | none => "Unknown".toList),
    response := some ("Error processing document: ".toList ++ msg),
    citations := [], error := some msg }

/-- One iteration of the loop: `none` means the document is skipped. -/
def processDoc (query : Str) (docId : Str) : DocStep → Option DocResponse
  | .metaMissing => none
  | .noText _ => none
  | .run meta text outcome => some (queryDocumentWithLLM query text meta outcome)
  | .raised msg metaAfter => some (errorEntry docId msg metaAfter)

/-- `generate_document_responses` (lines 44-113): the per-document
environment is the list of `(doc_id, step)` pairs. -/
def generateDocumentResponses (query : Str) (docs : List (Str × DocStep)) : List DocResponse :=
  docs.filterMap (fun p => processDoc query p.1 p.2)

/-! ## Synthesizer: `llm_service.synthesize_themes` -/

/-- Decimal rendering of a natural number, Python `str(i)`. -/
def digitCh : Nat → Char
  | 0 => '0' | 1 => '1' | 2 => '2' | 3 => '3' | 4 => '4'
  | 5 => '5' | 6 => '6' | 7 => '7' | 8 => '8' | _ => '9'

/-- Digits of `n`, most significant first; the first argument is fuel
(taking `n` itself gives the exact decimal expansion). -/
def natCharsGo : Nat → Nat → Str
  | 0, _ => []
  | fuel + 1, n => if n = 0 then [] else natCharsGo fuel (n / 10) ++ [digitCh (n % 10)]

def natStr (n : Nat) : Str :=
  if n = 0 then ['0'] else natCharsGo n n

/-- Outcome of the model call plus JSON parse of `synthesize_themes`
(lines 340-360). -/
inductive SynthOutcome where
  | exn (msg : Str)
  | parsed (resp : Str) (analyses : List ThemeAnalysis)
deriving DecidableEq

/-- `f"• {doc_name}: {doc.get('response', 'No response')[:200]}...\n\n"`
with `doc_name = doc.get('filename', f'Document {idx+1}')` (lines 378-380). -/
def bulletLine (idx : Nat) (d : DocResponse) : Str :=
  "• ".toList
    ++ d.filename.getD ("Document ".toList ++ natStr (idx + 1))
    ++ ": ".toList
    ++ (d.response.getD "No response".toList).take 200
    ++ "...\n\n".toList

/-- The accumulated `summary_text` of the connection-error fallback
(lines 377-380). -/
def synthSummary (drs : List DocResponse) : Str :=
  drs.enum.foldl (fun acc p => acc ++ bulletLine p.1 p.2) "Document Summaries:\n\n".toList

/-- `synthesize_themes(themes, document_responses, original_query)`
(lines 261-391). -/
def synthesizeThemes (themes : List RawTheme) (drs : List DocResponse)
    (query : Str) (outcome : SynthOutcome) : SynthResponse :=
  match outcome with
  | .parsed r a => { synthesized_response := r, themes_analysis := a, error := none }
  | .exn msg =>
    if containsSub "Connection".toList msg then
      { synthesized_response :=
          "Unable to synthesize themes due to connection issues. Here\x27s a summary of the documents:".toList
            ++ "\n\n".toList ++ synthSummary drs,
        themes_analysis := [], error := some msg }
    else
      { synthesized_response := "Error synthesizing themes: ".toList ++ msg,
        themes_analysis := [], error := some msg }

/-- The query pipeline of `routes.query_documents`: per-document answers,
then theme identification, then synthesis. -/
structure QueryResponse where
  document_responses : List DocResponse
  themes : List RawTheme
  synthesized_response : SynthResponse
deriving DecidableEq

def processQuery (query : Str) (docs : List (Str × DocStep)) (gen : Nat → Str)
    (tOut : ThemeOutcome) (sOut : SynthOutcome) : QueryResponse :=
  let drs := generateDocumentResponses query docs
  let ths := identifyThemes drs gen tOut
  { document_responses := drs, themes := ths,
    synthesized_response := synthesizeThemes ths drs query sOut }

/-! ## Vector store: `add_document`, `get_all_documents`

The metadata registry is a Python dict (insertion-ordered, update in
place); the external collection is modelled as a map from chunk id to the
stored `(document, metadata)` entry, per the spec's index boundary
`add(ids, texts, metadatas)` keyed by id.  A failing `collection.add`
is injected through `CollAddOutcome`. -/

structure MetaRec where
  id : Str
  filename : Str
  file_type : Str
  page_count : Nat
  processed_path : Str
deriving DecidableEq

structure ChunkRec where
  text : Str
  doc_id : Str
  chunk_index : Str
  filename : Str
  page_count : Str
deriving DecidableEq

structure Store where
  meta : List (Str × MetaRec)
  coll : Str → Option ChunkRec

/-- Python dict update: replace in place if the key exists, else append. -/
def metaUpsert (k : Str) (v : MetaRec) : List (Str × MetaRec) → List (Str × MetaRec)
  | [] => [(k, v)]
  | (k', v') :: rest =>
    if k' = k then (k, v) :: rest else (k', v') :: metaUpsert k v rest

/-- Last value bound to `k` in an entry batch (later entries win). -/
def lastVal (k : Str) : List (Str × ChunkRec) → Option ChunkRec
  | [] => none
  | (k', v) :: es =>
    match lastVal k es with
    | some w => some w
    | none => if k' = k then some v else none

/-- `collection.add(ids=…, documents=…, metadatas=…)`: store every entry
under its id. -/
def collAddAll (es : List (Str × ChunkRec)) (m : Str → Option ChunkRec) :
    Str → Option ChunkRec :=
  es.foldl (fun acc e => Function.update acc e.1 (some e.2)) m

/-- `f"{doc_id}_chunk_{i}"` (line 165). -/
def chunkId (docId : Str) (i : Nat) : Str := docId ++ "_chunk_".toList ++ natStr i

/-- The `doc_details` dict passed to `add_document` (`'id'` is accessed
with `[]`, everything else with `.get` and a default). -/
structure DocDetails where
  id : Str
  text : Option Str
  filename : Option Str
  file_type : Option Str
  page_count : Option Nat
  processed_path : Option Str
deriving DecidableEq

/-- Outcome of the external `collection.add` call. -/
inductive CollAddOutcome where
  | ok
  | failed (msg : Str)
deriving DecidableEq

/-- The `(ids, documents, metadatas)` batch built in lines 165-175. -/
def chunkEntries (d : DocDetails) (chunks : List Str) : List (Str × ChunkRec) :=
  chunks.enum.map (fun p =>
    (chunkId d.id p.1,
     { text := p.2, doc_id := d.id, chunk_index := natStr p.1,
       filename := d.filename.getD [], page_count := natStr (d.page_count.getD 0) }))

/-- `add_document(doc_details)` (vector_store.py lines 123-188): register
metadata (in memory and on disk), split the text with the configured
`CHUNK_SIZE = 1000`, `CHUNK_OVERLAP = 200`, substitute one empty chunk for
an empty split, then add the batch to the collection.  A `collection.add`
failure re-raises after the metadata write. -/
def addDocument (s : Store) (d : DocDetails) (outcome : CollAddOutcome) :
    Store × Except Str Bool :=
  let rec0 : MetaRec :=
    { id := d.id, filename := d.filename.getD [], file_type := d.file_type.getD [],
      page_count := d.page_count.getD 0, processed_path := d.processed_path.getD [] }
  let meta' := metaUpsert d.id rec0 s.meta
  let chunks0 := splitText (d.text.getD []) 1000 200
  let chunks := if chunks0.isEmpty then [[]] else chunks0
  match outcome with
  | .failed msg => ({ meta := meta', coll := s.coll }, .error msg)
  | .ok =>
    ({ meta := meta', coll := collAddAll (chunkEntries d chunks) s.coll }, .ok true)

/-- `get_all_documents()` (lines 250-274): the registry's values. -/
def getAllDocuments (s : Store) : List MetaRec := s.meta.map Prod.snd

/-- The chunks the index holds for one document id. -/
def chunksFor (s : Store) (docId : Str) : Str → Option ChunkRec :=
  fun k =>
    match s.coll k with
    | some r => if r.doc_id = docId then some r else none
    | none => none

/-- Every document registered in the metadata registry has at least one
chunk in the collection. -/
def StoreInv (s : Store) : Prop :=
  ∀ pr ∈ s.meta, ∃ k r, s.coll k = some r ∧ r.doc_id = pr.1

/-- Every collection entry sits under the chunk id derived from its own
document id (true of every entry `add_document` ever writes). -/
def StoreWF (s : Store) : Prop :=
  ∀ k r, s.coll k = some r → ∃ i, k = chunkId r.doc_id i

/-! ## `get_document_text` -/

/-- Outcome of reading the persisted extracted-text artifact at
`processed_path` (lines 297-300): the path does not exist, opening/parsing
raised, or the JSON was read (with or without a `full_text` key). -/
inductive FileOutcome where
  | absent
  | unreadable (msg : Str)
  | jsonContent (full_text : Option Str)
deriving DecidableEq

/-- Outcome of `collection.get(where={'doc_id': doc_id})` (lines 303-309). -/
inductive CollGetOutcome where
  | raised (msg : Str)
  | got (docs : List Str)
deriving DecidableEq

/-- The chunk-reassembly fallback (lines 302-311). -/
def collFallback : CollGetOutcome → Str
  | .raised _ => []
  | .got docs => if docs.isEmpty then [] else joinSep ' ' docs

/-- `get_document_text(doc_id)` (lines 277-315), as a function of the
metadata lookup result and the two external outcomes. -/
def getDocumentText (meta : Option MetaRec) (file : FileOutcome)
    (coll : CollGetOutcome) : Str :=
  match meta with
  | some m =>
    if m.processed_path.isEmpty then collFallback coll
    else
      match file with
      | .jsonContent ft => ft.getD []
      | .absent => collFallback coll
      | .unreadable _ => []
  | none => collFallback coll

/-! ## OCR adapter: `ocr_service.perform_ocr`, `document_processor.process_image` -/

/-- Python `os.path.basename` on a POSIX path. -/
def basename (p : Str) : Str := (splitP (fun c => c == '/') p).getLastD []

/-- Result of running the external `tesseract` binary on the prepared
image (`perform_tesseract_ocr` catches its own exceptions and returns an
error string). -/
inductive TesseractRun where
  | text (t : Str)
  | failed (msg : Str)
deriving DecidableEq

/-- What the `tesseract --version` probe (ocr_service.py lines 23-26)
did: succeeded, raised `SubprocessError`/`FileNotFoundError` (binary
missing or not invocable), or raised something else (caught by the outer
handler). -/
inductive OcrEnv where
  | engineMissing
  | engineOk (run : TesseractRun)
  | otherFailure (msg : Str)
deriving DecidableEq

/-- `perform_ocr(image_path)` (ocr_service.py lines 10-32). -/
def performOcr (imagePath : Str) (env : OcrEnv) : Str :=
  match env with
  | .engineMissing =>
    "[OCR Text Extraction from ".toList ++ basename imagePath ++ "]".toList
  | .engineOk (.text t) => t
  | .engineOk (.failed m) => "OCR processing failed: ".toList ++ m
  | .otherFailure m => "OCR processing failed: ".toList ++ m

/-- `process_image(file_path)` (document_processor.py lines 186-201):
OCR text plus a page count of 1. -/
def processImage (p : Str) (env : OcrEnv) : Str × Nat := (performOcr p env, 1)

/-! # Theorems

## Splitting algebra -/

theorem splitP_ne_nil (p : Char → Bool) (l : List Char) : splitP p l ≠ [] := by
  cases l with
  | nil => simp [splitP]
  | cons c rest =>
    unfold splitP
    split
    · simp
    · split <;> simp

theorem splitP_cons_ex (p : Char → Bool) (l : List Char) :
    ∃ w ws, splitP p l = w :: ws := by
  rcases h : splitP p l with _ | ⟨w, ws⟩
  · exact absurd h (splitP_ne_nil p l)
  · exact ⟨w, ws, rfl⟩

theorem splitP_cons_pos (p : Char → Bool) (c : Char) (rest : List Char)
    (h : p c = true) : splitP p (c :: rest) = [] :: splitP p rest := by
  simp [splitP, h]

theorem splitP_cons_neg (p : Char → Bool) (c : Char) (rest w : List Char)
    (ws : List (List Char)) (h : p c = false) (hs : splitP p rest = w :: ws) :
    splitP p (c :: rest) = (c :: w) :: ws := by
  simp [splitP, h, hs]

theorem joinSep_cons (sep : Char) (w : Str) (l : List Str) (h : l ≠ []) :
    joinSep sep (w :: l) = w ++ sep :: joinSep sep l := by
  cases l with
  | nil => exact absurd rfl h
  | cons b bs => rfl

theorem joinSep_cons_head (sep c : Char) (w : Str) (ws : List Str) :
    joinSep sep ((c :: w) :: ws) = c :: joinSep sep (w :: ws) := by
  cases ws <;> rfl

theorem joinSep_splitP (sep : Char) (l : List Char) :
    joinSep sep (splitP (fun c => c == sep) l) = l := by
  induction l with
  | nil => simp [splitP, joinSep]
  | cons c rest ih =>
    by_cases h : (c == sep) = true
    · have hc : c = sep := by simpa using h
      rw [splitP_cons_pos (fun x => x == sep) c rest h,
        joinSep_cons _ _ _ (splitP_ne_nil _ _), ih, hc]
      rfl
    · obtain ⟨w, ws, hsp⟩ := splitP_cons_ex (fun c => c == sep) rest
      rw [splitP_cons_neg _ _ _ _ _ (by simpa using h) hsp, joinSep_cons_head]
      rw [hsp] at ih
      rw [ih]

theorem splitP_append_sep (p : Char → Bool) (c : Char) (hc : p c = true) :
    ∀ a b : List Char, splitP p (a ++ c :: b) = splitP p a ++ splitP p b := by
  intro a
  induction a with
  | nil => intro b; simp [splitP, hc]
  | cons x a' ih =>
    intro b
    by_cases h : p x = true
    · rw [List.cons_append, splitP_cons_pos _ _ _ h, splitP_cons_pos _ _ _ h, ih,
        List.cons_append]
    · obtain ⟨w, ws, hsp⟩ := splitP_cons_ex p a'
      have h' : p x = false := by simpa using h
      rw [List.cons_append, splitP_cons_neg _ _ _ _ _ h' (by rw [ih, hsp]; rfl),
        splitP_cons_neg _ _ _ _ _ h' hsp, List.cons_append]
      rfl

theorem splitP_comp (p q : Char → Bool) (l : List Char) :
    ((splitP p l).map (splitP q)).flatten = splitP (fun c => p c || q c) l := by
  induction l with
  | nil => simp [splitP]
  | cons c rest ih =>
    by_cases hp : p c = true
    · have hor : (p c || q c) = true := by simp [hp]
      rw [splitP_cons_pos _ _ _ hp, splitP_cons_pos _ _ _ hor, List.map_cons,
        List.flatten_cons, ← ih]
      rfl
    · have hp' : p c = false := by simpa using hp
      obtain ⟨w, ws, hsp⟩ := splitP_cons_ex p rest
      by_cases hq : q c = true
      · have hor : (p c || q c) = true := by simp [hq]
        rw [splitP_cons_neg _ _ _ _ _ hp' hsp, splitP_cons_pos _ _ _ hor, List.map_cons,
          List.flatten_cons, splitP_cons_pos _ _ _ hq, ← ih, hsp]
        rfl
      · have hq' : q c = false := by simpa using hq
        have hor : (p c || q c) = false := by simp [hp', hq']
        obtain ⟨u, us, hsq⟩ := splitP_cons_ex q w
        obtain ⟨v, vs, hso⟩ := splitP_cons_ex (fun c => p c || q c) rest
        rw [hsp] at ih
        rw [hso] at ih
        rw [List.map_cons, List.flatten_cons, hsq] at ih
        have hu : u = v := by
          have := congrArg (fun l => List.head? l) ih
          simpa using this
        have hus : us ++ ((ws.map (splitP q)).flatten) = vs := by
          have := congrArg (fun l => List.tail l) ih
          simpa using this
        rw [splitP_cons_neg _ _ _ _ _ hp' hsp, splitP_cons_neg _ _ _ _ _ hor hso,
          List.map_cons, List.flatten_cons, splitP_cons_neg _ _ _ _ _ hq' hsq,
          List.cons_append, hu, hus]

theorem textWords_eq_splitP (t : Str) : textWords t = splitP isSepCh t := by
  unfold textWords splitOn
  rw [splitP_comp]
  rfl

theorem neWords_nil : neWords [] = [] := rfl

theorem neWords_append_sep (c : Char) (hc : isSepCh c = true) (a b : Str) :
    neWords (a ++ c :: b) = neWords a ++ neWords b := by
  unfold neWords
  rw [textWords_eq_splitP, textWords_eq_splitP, textWords_eq_splitP,
    splitP_append_sep _ _ hc, List.filter_append]

theorem neWords_joinSep (sep : Char) (hs : isSepCh sep = true) :
    ∀ ws : List Str, neWords (joinSep sep ws) = (ws.map neWords).flatten
  | [] => by simp [joinSep, neWords_nil]
  | [w] => by simp [joinSep]
  | w :: x :: ws => by
    rw [joinSep_cons _ _ _ (by simp), neWords_append_sep sep hs,
      neWords_joinSep sep hs (x :: ws)]
    simp [List.append_assoc]

theorem neWords_split_space (p : Str) :
    ((splitOn ' ' p).map neWords).flatten = neWords p := by
  rw [← neWords_joinSep ' ' (by decide) (splitOn ' ' p)]
  unfold splitOn
  rw [joinSep_splitP]

theorem neWords_split_newline (t : Str) :
    ((splitOn '\n' t).map neWords).flatten = neWords t := by
  rw [← neWords_joinSep '\n' (by decide) (splitOn '\n' t)]
  unfold splitOn
  rw [joinSep_splitP]

/-! ## Word preservation through the chunker -/

theorem stWords_addPiece (cs : Nat) (sep : Char) (hs : isSepCh sep = true)
    (st : ChunkSt) (piece : Str) :
    stWords (addPiece cs sep st piece) = stWords st ++ neWords piece := by
  unfold addPiece stWords
  split
  · simp [List.map_append, List.flatten_append, List.append_assoc]
  · split
    · rename_i hemp
      have hc : st.cur = [] := by simpa [List.isEmpty_iff] using hemp
      simp [hc, neWords_nil]
    · show (st.chunks.map neWords).flatten ++ neWords (st.cur ++ sep :: piece) = _
      rw [neWords_append_sep sep hs, List.append_assoc]

theorem innerWords_procWord (cs : Nat) (s : ChunkSt × Str) (w : Str) :
    innerWords (procWord cs s w) = innerWords s ++ neWords w := by
  unfold procWord innerWords
  split
  · show stWords (addPiece cs ' ' s.1 s.2) ++ neWords w = _
    rw [stWords_addPiece cs ' ' (by decide), List.append_assoc]
  · split
    · rename_i _ hemp
      have hc : s.2 = [] := by simpa [List.isEmpty_iff] using hemp
      simp [hc, neWords_nil]
    · show stWords s.1 ++ neWords (s.2 ++ ' ' :: w) = _
      rw [neWords_append_sep ' ' (by decide), List.append_assoc]

theorem innerWords_foldl (cs : Nat) :
    ∀ (ws : List Str) (s : ChunkSt × Str),
      innerWords (ws.foldl (procWord cs) s) = innerWords s ++ (ws.map neWords).flatten
  | [], s => by simp
  | w :: ws, s => by
    rw [List.foldl_cons, innerWords_foldl cs ws, innerWords_procWord]
    simp [List.append_assoc]

theorem stWords_procLongParagraph (cs : Nat) (st : ChunkSt) (p : Str) :
    stWords (procLongParagraph cs st p) = stWords st ++ neWords p := by
  unfold procLongParagraph
  dsimp only
  have h := innerWords_foldl cs (splitOn ' ' p) (st, [])
  rw [neWords_split_space] at h
  unfold innerWords at h
  simp only [neWords_nil, List.append_nil] at h
  split
  · rename_i hemp
    have hc : ((splitOn ' ' p).foldl (procWord cs) (st, [])).2 = [] := by
      simpa [List.isEmpty_iff] using hemp
    rw [hc, neWords_nil, List.append_nil] at h
    exact h
  · rw [stWords_addPiece cs ' ' (by decide)]
    exact h

theorem stWords_procParagraph (cs : Nat) (st : ChunkSt) (p : Str) :
    stWords (procParagraph cs st p) = stWords st ++ neWords p := by
  unfold procParagraph
  split
  · exact stWords_procLongParagraph cs st p
  · exact stWords_addPiece cs '\n' (by decide) st p

theorem stWords_foldl (cs : Nat) :
    ∀ (ps : List Str) (st : ChunkSt),
      stWords (ps.foldl (procParagraph cs) st) = stWords st ++ (ps.map neWords).flatten
  | [], st => by simp
  | p :: ps, st => by
    rw [List.foldl_cons, stWords_foldl cs ps, stWords_procParagraph]
    simp [List.append_assoc]

theorem baseChunks_words (t : Str) (cs : Nat) :
    ((baseChunks t cs).map neWords).flatten = neWords t := by
  unfold baseChunks
  dsimp only
  have h := stWords_foldl cs (splitOn '\n' t) ⟨[], []⟩
  rw [neWords_split_newline] at h
  unfold stWords at h
  simp only [List.map_nil, List.flatten_nil, neWords_nil, List.append_nil,
    List.nil_append] at h
  split
  · rename_i hemp
    have hc : ((splitOn '\n' t).foldl (procParagraph cs) ⟨[], []⟩).cur = [] := by
      simpa [List.isEmpty_iff] using hemp
    rw [hc, neWords_nil, List.append_nil] at h
    exact h
  · rw [List.map_append, List.flatten_append]
    simpa using h

/-! ## Overlap application and removal invert each other -/

theorem stripAfter_overlapTail (ov : Nat) :
    ∀ (cs : List Str) (prev : Str), stripAfter ov prev (overlapTail ov prev cs) = cs
  | [], _ => rfl
  | c :: cs, prev => by
    unfold overlapTail stripAfter
    have hlen : (copiedTail ov prev).length = min ov prev.length := by
      unfold copiedTail
      rw [List.length_drop]
      omega
    have hdrop : (copiedTail ov prev ++ c).drop (min ov prev.length) = c := by
      rw [← hlen, List.drop_left]
    rw [hdrop, stripAfter_overlapTail ov cs c]

theorem stripAfter_zero : ∀ (l : List Str) (prev : Str), stripAfter 0 prev l = l
  | [], _ => rfl
  | c :: cs, prev => by
    unfold stripAfter
    simp [stripAfter_zero cs]

theorem stripOverlaps_splitText (t : Str) (cs ov : Nat) (h : t.isEmpty = false) :
    stripOverlaps ov (splitText t cs ov) = baseChunks t cs := by
  unfold splitText
  simp only [h, Bool.false_eq_true, if_false]
  split
  · rename_i hcond
    split
    · rename_i heq
      rw [heq] at hcond
      simp at hcond
    · rename_i c cs' heq
      show c :: stripAfter ov c (overlapTail ov c cs') = baseChunks t cs
      rw [stripAfter_overlapTail, heq]
  · rename_i hcond
    rcases Nat.eq_zero_or_pos ov with hov | hov
    · subst hov
      cases hb : baseChunks t cs with
      | nil => rfl
      | cons c cs' =>
        show c :: stripAfter 0 c cs' = c :: cs'
        rw [stripAfter_zero]
    · have hlen : (baseChunks t cs).length ≤ 1 := by
        by_contra hgt
        exact hcond ⟨hov, by omega⟩
      cases hb : baseChunks t cs with
      | nil => rfl
      | cons c cs' =>
        rw [hb] at hlen
        simp only [List.length_cons] at hlen
        have : cs' = [] := List.length_eq_zero.mp (by omega)
        subst this
        rfl

/-- The chunks with overlap removed are exactly the pre-overlap chunks, and
their word sequences flatten to the words of the input. -/
theorem stripped_words (t : Str) (cs ov : Nat) :
    ((stripOverlaps ov (splitText t cs ov)).map neWords).flatten = neWords t := by
  by_cases h : t.isEmpty = true
  · have ht : t = [] := by simpa [List.isEmpty_iff] using h
    subst ht
    simp [splitText, stripOverlaps, neWords_nil]
  · rw [stripOverlaps_splitText t cs ov (by simpa using h)]
    exact baseChunks_words t cs

/-! ## Chunk size bound -/

theorem goodPiece_nil (t : Str) (cs : Nat) : goodPiece t cs [] :=
  Or.inl (by simp)

theorem addPiece_good (t : Str) (cs : Nat) (sep : Char) (st : ChunkSt) (piece : Str)
    (hst : goodSt t cs st) (hp : goodPiece t cs piece) :
    goodSt t cs (addPiece cs sep st piece) := by
  unfold addPiece
  split
  · refine ⟨?_, hp⟩
    intro c hc
    rcases List.mem_append.mp hc with h | h
    · exact hst.1 c h
    · simp only [List.mem_singleton] at h
      subst h
      exact hst.2
  · split
    · exact ⟨hst.1, hp⟩
    · rename_i hflush _
      refine ⟨hst.1, Or.inl ?_⟩
      simp only [List.length_append, List.length_cons]
      omega

theorem mem_neWords_of_big (t : Str) (cs : Nat) (w : Str)
    (hw : w ∈ textWords t) (hbig : ¬ w.length ≤ cs) : w ∈ neWords t := by
  unfold neWords
  rw [List.mem_filter]
  refine ⟨hw, ?_⟩
  cases w with
  | nil => simp at hbig
  | cons c cs' => rfl

theorem procWord_good (t : Str) (cs : Nat) (s : ChunkSt × Str) (w : Str)
    (hs1 : goodSt t cs s.1) (hs2 : goodPiece t cs s.2) (hw : w ∈ textWords t) :
    goodSt t cs (procWord cs s w).1 ∧ goodPiece t cs (procWord cs s w).2 := by
  have hgw : goodPiece t cs w := by
    by_cases hlen : w.length ≤ cs
    · exact Or.inl hlen
    · exact Or.inr (mem_neWords_of_big t cs w hw hlen)
  unfold procWord
  split
  · exact ⟨addPiece_good t cs ' ' s.1 s.2 hs1 hs2, hgw⟩
  · split
    · exact ⟨hs1, hgw⟩
    · rename_i hfit _
      refine ⟨hs1, Or.inl ?_⟩
      simp only [List.length_append, List.length_cons]
      omega

theorem foldl_procWord_good (t : Str) (cs : Nat) :
    ∀ (ws : List Str) (s : ChunkSt × Str),
      (∀ w ∈ ws, w ∈ textWords t) → goodSt t cs s.1 → goodPiece t cs s.2 →
      goodSt t cs (ws.foldl (procWord cs) s).1 ∧ goodPiece t cs (ws.foldl (procWord cs) s).2
  | [], s, _, h1, h2 => ⟨h1, h2⟩
  | w :: ws, s, hmem, h1, h2 => by
    rw [List.foldl_cons]
    obtain ⟨g1, g2⟩ := procWord_good t cs s w h1 h2 (hmem w (by simp))
    exact foldl_procWord_good t cs ws _ (fun x hx => hmem x (by simp [hx])) g1 g2

theorem procLongParagraph_good (t : Str) (cs : Nat) (st : ChunkSt) (p : Str)
    (hmem : ∀ w ∈ splitOn ' ' p, w ∈ textWords t) (hst : goodSt t cs st) :
    goodSt t cs (procLongParagraph cs st p) := by
  unfold procLongParagraph
  dsimp only
  obtain ⟨g1, g2⟩ :=
    foldl_procWord_good t cs (splitOn ' ' p) (st, []) hmem hst (goodPiece_nil t cs)
  split
  · exact g1
  · exact addPiece_good t cs ' ' _ _ g1 g2

theorem procParagraph_good (t : Str) (cs : Nat) (st : ChunkSt) (p : Str)
    (hp : p ∈ splitOn '\n' t) (hst : goodSt t cs st) :
    goodSt t cs (procParagraph cs st p) := by
  unfold procParagraph
  split
  · apply procLongParagraph_good t cs st p _ hst
    intro w hw
    unfold textWords
    rw [List.mem_flatten]
    exact ⟨splitOn ' ' p, List.mem_map_of_mem _ hp, hw⟩
  · apply addPiece_good t cs '\n' st p hst
    rename_i hshort
    left
    omega

theorem foldl_procParagraph_good (t : Str) (cs : Nat) :
    ∀ (ps : List Str) (st : ChunkSt),
      (∀ p ∈ ps, p ∈ splitOn '\n' t) → goodSt t cs st →
      goodSt t cs (ps.foldl (procParagraph cs) st)
  | [], st, _, hst => hst
  | p :: ps, st, hmem, hst => by
    rw [List.foldl_cons]
    exact foldl_procParagraph_good t cs ps _ (fun x hx => hmem x (by simp [hx]))
      (procParagraph_good t cs st p (hmem p (by simp)) hst)

theorem baseChunks_good (t : Str) (cs : Nat) :
    ∀ c ∈ baseChunks t cs, goodPiece t cs c := by
  unfold baseChunks
  dsimp only
  have h := foldl_procParagraph_good t cs (splitOn '\n' t) ⟨[], []⟩
    (fun p hp => hp) ⟨by simp, goodPiece_nil t cs⟩
  split
  · exact h.1
  · intro c hc
    rcases List.mem_append.mp hc with h' | h'
    · exact h.1 c h'
    · simp only [List.mem_singleton] at h'
      subst h'
      exact h.2

/-! ## Claims C2 and C3 -/

/-- Claim C2 is false on the code: at `text = "aa\nbb"`, `chunk_size = 2`,
`overlap = 0` the chunks are `["", "aa", "bb"]`; concatenating them after
overlap-stripping yields `"aabb"`, not the original text — the newline at
the chunk boundary is dropped. -/
theorem c2_roundtrip_cex :
    (stripOverlaps 0 (splitText "aa\nbb".toList 2 0)).flatten ≠ "aa\nbb".toList := by
  decide

/-- Claim C2 (amended): concatenation does not recover the exact text
(boundary separators are dropped and a newline can be replaced by a
space), but the chunker is lossless on words: for every text, chunk size
and overlap, the whitespace-delimited words of the overlap-stripped
chunks, concatenated in order, are exactly the whitespace-delimited words
of the input text. -/
theorem c2_words_roundtrip (t : Str) (cs ov : Nat) :
    ((stripOverlaps ov (splitText t cs ov)).map neWords).flatten = neWords t :=
  stripped_words t cs ov

/-- Claim C3: every chunk of `_split_text`, after its overlap copy is
stripped, has length at most `chunk_size`, except when it consists of a
single whitespace-delimited word of the input longer than `chunk_size`;
and no word is ever broken across chunks (every word of the input occurs
intact inside some chunk). -/
theorem c3_chunk_bound (t : Str) (cs ov : Nat) :
    (∀ c ∈ stripOverlaps ov (splitText t cs ov),
        c.length ≤ cs ∨ (c ∈ neWords t ∧ cs < c.length)) ∧
    (∀ w ∈ neWords t, ∃ c ∈ stripOverlaps ov (splitText t cs ov), w ∈ neWords c) := by
  constructor
  · intro c hc
    have hgood : goodPiece t cs c := by
      by_cases h : t.isEmpty = true
      · have ht : t = [] := by simpa [List.isEmpty_iff] using h
        subst ht
        simp [splitText, stripOverlaps] at hc
      · rw [stripOverlaps_splitText t cs ov (by simpa using h)] at hc
        exact baseChunks_good t cs c hc
    rcases hgood with h | h
    · exact Or.inl h
    · by_cases hl : c.length ≤ cs
      · exact Or.inl hl
      · exact Or.inr ⟨h, by omega⟩
  · intro w hw
    rw [← stripped_words t cs ov, List.mem_flatten] at hw
    obtain ⟨s, hs, hws⟩ := hw
    rw [List.mem_map] at hs
    obtain ⟨c, hc, rfl⟩ := hs
    exact ⟨c, hc, hws⟩

/-- Witness for `c3_chunk_bound` at the concrete input `"ab cd"`,
`chunk_size = 10`, `overlap = 0`. -/
theorem c3_chunk_bound_w :
    ("ab cd".toList ∈ stripOverlaps 0 (splitText "ab cd".toList 10 0)) ∧
    ("ab cd".toList.length ≤ 10 ∨
      ("ab cd".toList ∈ neWords "ab cd".toList ∧ 10 < "ab cd".toList.length)) :=
  ⟨by decide, (c3_chunk_bound "ab cd".toList 10 0).1 "ab cd".toList (by decide)⟩

/-! ## Claim C1: theme-identifier fallback -/

theorem fallbackDocs_eq : ∀ rs : List DocResponse,
    fallbackSupportingDocs rs =
      (rs.filterMap DocResponse.id).filter (fun s => !s.isEmpty)
  | [] => rfl
  | r :: rs => by
    have ih := fallbackDocs_eq rs
    unfold fallbackSupportingDocs at ih ⊢
    rw [List.filterMap_cons, List.filterMap_cons]
    cases hr : r.id with
    | none => simpa [hr] using ih
    | some s =>
      cases s with
      | nil => simpa [hr] using ih
      | cons c cs' => simpa [hr] using ih

/-- Claim C1: when the model call completes but the parse chain yields zero
themes, `identify_themes` returns exactly the one fallback theme whose
`supporting_docs` are the present, non-empty ids of the input answers; it
never raises, and returns `[]` exactly when the `try` block raised. -/
theorem c1_identify_themes_fallback (rs : List DocResponse) (gen : Nat → Str)
    (msg : Str) (ts : List RawTheme) :
    identifyThemes rs gen (.parsed []) =
      [{ id := some (gen 0),
         name := "Document Analysis".toList,
         description := "Analysis of document content related to the query.".toList,
         supporting_docs := (rs.filterMap DocResponse.id).filter (fun s => !s.isEmpty) }] ∧
    identifyThemes rs gen (.exn msg) = [] ∧
    identifyThemes rs gen (.parsed ts) ≠ [] := by
  refine ⟨?_, rfl, ?_⟩
  · simp [identifyThemes, fallbackDocs_eq]
  · cases ts with
    | nil => simp [identifyThemes]
    | cons t ts' => simp [identifyThemes, assignThemeIds, List.enum_cons]

/-! ## Claim C4: no query-time failure propagates -/

/-- Claim C4: a per-document exception becomes an in-place error entry (the
rest of the loop's output is unchanged), a theme-identification exception
becomes `[]`, a synthesis exception becomes a response with the error
recorded, and the pipeline composes these into a complete response even
when the model stages both raise. -/
theorem c4_no_propagation (q : Str) (pre post : List (Str × DocStep)) (d msg : Str)
    (meta : Option DocMeta) (rs : List DocResponse) (gen : Nat → Str) (m2 m3 : Str)
    (th : List RawTheme) (docs : List (Str × DocStep)) :
    generateDocumentResponses q (pre ++ (d, .raised msg meta) :: post) =
      generateDocumentResponses q pre
        ++ errorEntry d msg meta :: generateDocumentResponses q post ∧
    (errorEntry d msg meta).error = some msg ∧
    identifyThemes rs gen (.exn m2) = [] ∧
    (synthesizeThemes th rs q (.exn m3)).error = some m3 ∧
    processQuery q docs gen (.exn m2) (.exn m3) =
      { document_responses := generateDocumentResponses q docs,
        themes := [],
        synthesized_response :=
          synthesizeThemes [] (generateDocumentResponses q docs) q (.exn m3) } := by
  refine ⟨?_, rfl, rfl, ?_, rfl⟩
  · unfold generateDocumentResponses
    rw [List.filterMap_append]
    simp [List.filterMap_cons, processDoc]
  · simp only [synthesizeThemes]
    split <;> rfl

/-! ## Claim C5: per-document connectivity fallback -/

/-- Claim C5: on a connectivity-class model failure the returned answer's
error is the fixed connection message (which contains the marker
`"Connection"`), and its response text contains the preview — the first
at-most-500 characters of the document text. -/
theorem c5_connectivity_fallback (q docText : Str) (meta : DocMeta) (msg : Str)
    (h : connectivityError msg = true) :
    (queryDocumentWithLLM q docText meta (.exn msg)).error =
      some "Connection issue - displaying document preview only".toList ∧
    containsSub "Connection".toList
      "Connection issue - displaying document preview only".toList = true ∧
    ∃ rt, (queryDocumentWithLLM q docText meta (.exn msg)).response = some rt ∧
      containsSub (docText.take 500) rt = true ∧
      (docText.take 500).length ≤ 500 := by
  have hr : queryDocumentWithLLM q docText meta (.exn msg) =
      { id := meta.id, filename := some (meta.filename.getD "Unknown".toList),
        response := some ("This document contains information that might be relevant to your query. Here\x27s a preview: ".toList
          ++ docPreview docText),
        citations := [{ text := docPreview docText, location := "Document preview".toList }],
        error := some "Connection issue - displaying document preview only".toList } := by
    simp only [queryDocumentWithLLM, h, if_true]
  rw [hr]
  refine ⟨rfl, by decide, _, rfl, ?_, ?_⟩
  · unfold containsSub
    rw [decide_eq_true_eq]
    by_cases hl : 500 < docText.length
    · refine ⟨"This document contains information that might be relevant to your query. Here\x27s a preview: ".toList,
        "...".toList, ?_⟩
      simp [docPreview, hl, List.append_assoc]
    · refine ⟨"This document contains information that might be relevant to your query. Here\x27s a preview: ".toList,
        [], ?_⟩
      have : docText.take 500 = docText := List.take_of_length_le (by omega)
      simp [docPreview, hl, this]
  · rw [List.length_take]
    omega

/-- Witness for `c5_connectivity_fallback` at `msg = "Connection reset"`,
`docText = "hello"`. -/
theorem c5_connectivity_fallback_w :
    connectivityError "Connection reset".toList = true ∧
    ((queryDocumentWithLLM "q".toList "hello".toList
        ⟨some "D1".toList, some "a.txt".toList, some 1⟩
        (.exn "Connection reset".toList)).error =
      some "Connection issue - displaying document preview only".toList ∧
    containsSub "Connection".toList
      "Connection issue - displaying document preview only".toList = true ∧
    ∃ rt, (queryDocumentWithLLM "q".toList "hello".toList
        ⟨some "D1".toList, some "a.txt".toList, some 1⟩
        (.exn "Connection reset".toList)).response = some rt ∧
      containsSub ("hello".toList.take 500) rt = true ∧
      ("hello".toList.take 500).length ≤ 500) :=
  ⟨by decide,
   c5_connectivity_fallback "q".toList "hello".toList
     ⟨some "D1".toList, some "a.txt".toList, some 1⟩
     "Connection reset".toList (by decide)⟩

/-! ## Claim C6: synthesizer connectivity fallback -/

theorem foldl_bulletLine :
    ∀ (l : List (Nat × DocResponse)) (init : Str),
      l.foldl (fun acc p => acc ++ bulletLine p.1 p.2) init =
        init ++ (l.map (fun p => bulletLine p.1 p.2)).flatten
  | [], init => by simp
  | x :: l, init => by
    rw [List.foldl_cons, foldl_bulletLine l]
    simp [List.append_assoc]

/-- Claim C6 is false on the code for the spec's connectivity class: a
timeout-flagged failure (`"timeout"` satisfies the repository's own
connectivity predicate used by the per-document path) does not trigger the
synthesizer's per-document summary — `synthesize_themes` checks only for
the substring `"Connection"`, so the result carries no bullet line for the
(single) input document. -/
theorem c6_connectivity_cex :
    connectivityError "timeout".toList = true ∧
    (synthesizeThemes []
        [⟨some "D1".toList, some "alpha.txt".toList, some "Answer".toList, [], none⟩]
        "q".toList (.exn "timeout".toList)).themes_analysis = [] ∧
    containsSub
      (bulletLine 0 ⟨some "D1".toList, some "alpha.txt".toList, some "Answer".toList, [], none⟩)
      (synthesizeThemes []
        [⟨some "D1".toList, some "alpha.txt".toList, some "Answer".toList, [], none⟩]
        "q".toList (.exn "timeout".toList)).synthesized_response = false ∧
    containsSub "•".toList
      (synthesizeThemes []
        [⟨some "D1".toList, some "alpha.txt".toList, some "Answer".toList, [], none⟩]
        "q".toList (.exn "timeout".toList)).synthesized_response = false := by
  refine ⟨by decide, rfl, by decide, by decide⟩

/-- Claim C6 (amended): when the synthesis model call fails with an error
whose message contains the substring `"Connection"` (the only marker the
synthesis path checks — unlike the per-document path it does not treat
timeout/network-marked messages as connectivity failures), the result is
built without any further model call: the fixed preamble, then one bullet
line per input document (document name and first 200 characters of its
answer), with empty `themes_analysis` and the error recorded. -/
theorem c6_connection_fallback (themes : List RawTheme) (drs : List DocResponse)
    (q msg : Str) (h : containsSub "Connection".toList msg = true) :
    synthesizeThemes themes drs q (.exn msg) =
      { synthesized_response :=
          "Unable to synthesize themes due to connection issues. Here\x27s a summary of the documents:".toList
            ++ "\n\n".toList ++ "Document Summaries:\n\n".toList
            ++ (drs.enum.map (fun p => bulletLine p.1 p.2)).flatten,
        themes_analysis := [],
        error := some msg } := by
  simp only [synthesizeThemes, h, if_true]
  unfold synthSummary
  rw [foldl_bulletLine]
  simp [List.append_assoc]

/-- Witness for `c6_connection_fallback` at one concrete document and
`msg = "Connection aborted"`. -/
theorem c6_connection_fallback_w :
    containsSub "Connection".toList "Connection aborted".toList = true ∧
    synthesizeThemes []
        [⟨some "D1".toList, some "alpha.txt".toList, some "Answer".toList, [], none⟩]
        "q".toList (.exn "Connection aborted".toList) =
      { synthesized_response :=
          "Unable to synthesize themes due to connection issues. Here\x27s a summary of the documents:".toList
            ++ "\n\n".toList ++ "Document Summaries:\n\n".toList
            ++ (([⟨some "D1".toList, some "alpha.txt".toList, some "Answer".toList, [], none⟩] :
                List DocResponse).enum.map (fun p => bulletLine p.1 p.2)).flatten,
        themes_analysis := [],
        error := some "Connection aborted".toList } :=
  ⟨by decide,
   c6_connection_fallback []
     [⟨some "D1".toList, some "alpha.txt".toList, some "Answer".toList, [], none⟩]
     "q".toList "Connection aborted".toList (by decide)⟩

/-! ## Claim C9: OCR fallback -/

/-- Claim C9: when the recognition binary is missing/not invocable,
`perform_ocr` returns exactly the placeholder naming the file's basename,
and image ingestion still succeeds with that text and one page. -/
theorem c9_ocr_missing_engine (p : Str) :
    performOcr p .engineMissing =
      "[OCR Text Extraction from ".toList ++ basename p ++ "]".toList ∧
    processImage p .engineMissing =
      ("[OCR Text Extraction from ".toList ++ basename p ++ "]".toList, 1) ∧
    basename "backend/data/uploads/scan.png".toList = "scan.png".toList :=
  ⟨rfl, rfl, by decide⟩

/-! ## Claim C10: `get_document_text` is total and falls back to `""` -/

/-- Claim C10: `get_document_text` returns the empty string (rather than
raising) when the id is unregistered and the chunk lookup fails or finds
nothing, and likewise when the artifact is unreadable or absent with no
chunks. -/
theorem c10_get_document_text_empty (file : FileOutcome) (msg msg2 : Str)
    (m : MetaRec) :
    getDocumentText none file (.raised msg) = [] ∧
    getDocumentText none file (.got []) = [] ∧
    getDocumentText (some m) (.unreadable msg2) (.raised msg) = [] ∧
    getDocumentText (some m) (.unreadable msg2) (.got []) = [] ∧
    getDocumentText (some m) .absent (.got []) = [] ∧
    getDocumentText (some m) .absent (.raised msg) = [] := by
  refine ⟨rfl, rfl, ?_, ?_, ?_, ?_⟩ <;>
    · unfold getDocumentText
      split <;> first
        | rfl
        | (split <;> rfl)

/-! ## Decimal rendering: `natStr` agrees with `Nat.digits` and is injective -/

theorem natCharsGo_eq (fuel : Nat) :
    ∀ n : Nat, n ≤ fuel → natCharsGo fuel n = ((Nat.digits 10 n).map digitCh).reverse := by
  induction fuel with
  | zero =>
    intro n hn
    have h0 : n = 0 := by omega
    subst h0
    simp [natCharsGo]
  | succ fuel ih =>
    intro n hn
    unfold natCharsGo
    by_cases h0 : n = 0
    · simp [h0]
    · simp only [h0, if_false]
      have hdiv : n / 10 < n := Nat.div_lt_self (Nat.pos_of_ne_zero h0) (by norm_num)
      rw [ih (n / 10) (by omega),
        Nat.digits_def' (by norm_num : (1:ℕ) < 10) (Nat.pos_of_ne_zero h0)]
      simp

theorem natStr_eq (n : Nat) :
    natStr n = if n = 0 then ['0'] else ((Nat.digits 10 n).map digitCh).reverse := by
  unfold natStr
  split
  · rfl
  · exact natCharsGo_eq n n le_rfl

theorem digitCh_ne_underscore (d : Nat) : digitCh d ≠ '_' := by
  unfold digitCh
  split <;> decide

theorem digitCh_inj (d e : Nat) (hd : d < 10) (he : e < 10)
    (h : digitCh d = digitCh e) : d = e := by
  interval_cases d <;> interval_cases e <;> revert h <;> decide

theorem natStr_no_underscore (n : Nat) : ∀ c ∈ natStr n, c ≠ '_' := by
  rw [natStr_eq]
  split
  · intro c hc
    simp only [List.mem_singleton] at hc
    subst hc
    decide
  · intro c hc
    rw [List.mem_reverse, List.mem_map] at hc
    obtain ⟨d, _, rfl⟩ := hc
    exact digitCh_ne_underscore d

theorem map_digitCh_inj :
    ∀ (xs ys : List Nat), (∀ x ∈ xs, x < 10) → (∀ y ∈ ys, y < 10) →
      xs.map digitCh = ys.map digitCh → xs = ys
  | [], [], _, _, _ => rfl
  | [], _ :: _, _, _, h => by simp at h
  | _ :: _, [], _, _, h => by simp at h
  | x :: xs, y :: ys, hx, hy, h => by
    simp only [List.map_cons, List.cons.injEq] at h
    have h1 := digitCh_inj x y (hx x (by simp)) (hy y (by simp)) h.1
    have h2 := map_digitCh_inj xs ys (fun a ha => hx a (by simp [ha]))
      (fun a ha => hy a (by simp [ha])) h.2
    rw [h1, h2]

theorem zero_str_ne_digits (n : Nat) (hn : n ≠ 0)
    (h : ['0'] = ((Nat.digits 10 n).map digitCh).reverse) : False := by
  have h2 : (Nat.digits 10 n).map digitCh = ['0'] := by
    have := congrArg List.reverse h
    simpa using this.symm
  rcases hd : Nat.digits 10 n with _ | ⟨d, ds⟩
  · exact hn (Nat.digits_eq_nil_iff_eq_zero.mp hd)
  · rw [hd] at h2
    simp only [List.map_cons, List.cons.injEq] at h2
    obtain ⟨hdc, hds⟩ := h2
    have hds' : ds = [] := by simpa using hds
    have hd10 : d < 10 := Nat.digits_lt_base (by norm_num) (by rw [hd]; simp)
    have hd0 : d = 0 := digitCh_inj d 0 hd10 (by norm_num) (by rw [hdc]; rfl)
    subst hds'
    subst hd0
    have := congrArg (Nat.ofDigits 10) hd
    rw [Nat.ofDigits_digits] at this
    simp [Nat.ofDigits] at this
    exact hn this

theorem natStr_inj (m n : Nat) (h : natStr m = natStr n) : m = n := by
  rw [natStr_eq, natStr_eq] at h
  by_cases hm : m = 0 <;> by_cases hn : n = 0
  · omega
  · exact absurd (by simpa [hm, hn] using h) (fun hh => zero_str_ne_digits n hn hh)
  · exact absurd (by simpa [hm, hn] using h.symm) (fun hh => zero_str_ne_digits m hm hh)
  · simp only [hm, hn, if_false] at h
    have h2 : (Nat.digits 10 m).map digitCh = (Nat.digits 10 n).map digitCh := by
      have := congrArg List.reverse h
      simpa using this
    have h3 := map_digitCh_inj (Nat.digits 10 m) (Nat.digits 10 n)
      (fun x hx => Nat.digits_lt_base (by norm_num) hx)
      (fun y hy => Nat.digits_lt_base (by norm_num) hy) h2
    have h4 := congrArg (Nat.ofDigits 10) h3
    simpa [Nat.ofDigits_digits] using h4

/-! ## Chunk ids are injective in `(doc_id, index)` -/

theorem chunkId_len_aux (a b u v : Str) (hv : ∀ c ∈ v, c ≠ '_')
    (hlt : u.length < v.length)
    (h : a ++ ("_chunk_".toList ++ u) = b ++ ("_chunk_".toList ++ v)) : False := by
  have hsl : ("_chunk_".toList : Str).length = 7 := by decide
  have h' := congrArg List.length h
  simp only [List.length_append, hsl] at h'
  set k := a.length - b.length with hk
  have hab : b.length < a.length := by omega
  have hk1 : 1 ≤ k := by omega
  have hsplit : a.length = b.length + k := by omega
  have hdropA : (a ++ ("_chunk_".toList ++ u)).drop a.length = "_chunk_".toList ++ u :=
    List.drop_left a _
  have hdropB : (b ++ ("_chunk_".toList ++ v)).drop a.length =
      ("_chunk_".toList ++ v).drop k := by
    rw [hsplit, ← List.drop_drop, List.drop_left]
  have heq : "_chunk_".toList ++ u = ("_chunk_".toList ++ v).drop k := by
    rw [← hdropA, h, hdropB]
  have h6 : ("_chunk_".toList ++ u)[6]? = some '_' := by
    rw [List.getElem?_append_left (by rw [hsl]; omega)]
    decide
  have h6' : (("_chunk_".toList ++ v).drop k)[6]? = v[k - 1]? := by
    rw [List.getElem?_drop, List.getElem?_append_right (by rw [hsl]; omega)]
    congr 1
  rw [heq, h6'] at h6
  exact hv '_' (List.getElem?_mem h6) rfl

theorem chunkId_inj (a b : Str) (i j : Nat) (h : chunkId a i = chunkId b j) :
    a = b ∧ i = j := by
  unfold chunkId at h
  rw [List.append_assoc, List.append_assoc] at h
  have hlen : (natStr i).length = (natStr j).length := by
    rcases Nat.lt_trichotomy (natStr i).length (natStr j).length with hlt | heq | hgt
    · exact (chunkId_len_aux a b (natStr i) (natStr j) (natStr_no_underscore j) hlt h).elim
    · exact heq
    · exact (chunkId_len_aux b a (natStr j) (natStr i) (natStr_no_underscore i) hgt h.symm).elim
  have hsl : ("_chunk_".toList : Str).length = 7 := by decide
  have hablen : a.length = b.length := by
    have := congrArg List.length h
    simp only [List.length_append, hsl] at this
    omega
  obtain ⟨hab, hrest⟩ := List.append_inj h hablen
  exact ⟨hab, natStr_inj i j (List.append_cancel_left hrest)⟩

/-! ## Collection-map and metadata-dict lemmas -/

theorem lastVal_cons (k k' : Str) (w : ChunkRec) (es : List (Str × ChunkRec)) :
    lastVal k ((k', w) :: es) =
      match lastVal k es with
      | some u => some u
      | none => if k' = k then some w else none := rfl

theorem collAddAll_apply :
    ∀ (es : List (Str × ChunkRec)) (m : Str → Option ChunkRec) (k : Str),
      collAddAll es m k =
        match lastVal k es with
        | some v => some v
        | none => m k
  | [], m, k => rfl
  | (k', v) :: es, m, k => by
    show collAddAll es (Function.update m k' (some v)) k = _
    rw [collAddAll_apply es, lastVal_cons]
    cases hl : lastVal k es with
    | some w => simp [hl]
    | none =>
      simp only [hl]
      by_cases hk : k' = k
      · subst hk
        simp [Function.update_apply]
      · have hk' : ¬ k = k' := fun hh => hk hh.symm
        simp [Function.update_apply, hk, hk']

theorem lastVal_mem :
    ∀ (es : List (Str × ChunkRec)) (k : Str) (v : ChunkRec),
      lastVal k es = some v → (k, v) ∈ es
  | [], k, v, h => by simp [lastVal] at h
  | (k', w) :: es, k, v, h => by
    rw [lastVal_cons] at h
    cases hl : lastVal k es with
    | some u =>
      rw [hl] at h
      injection h with h
      subst h
      exact List.mem_cons_of_mem _ (lastVal_mem es k u hl)
    | none =>
      rw [hl] at h
      by_cases hk : k' = k
      · rw [if_pos hk] at h
        injection h with h
        subst h
        subst hk
        exact List.mem_cons_self _ _
      · rw [if_neg hk] at h
        cases h

theorem lastVal_isSome :
    ∀ (es : List (Str × ChunkRec)) (k : Str),
      k ∈ es.map Prod.fst → ∃ v, lastVal k es = some v
  | [], k, h => by simp at h
  | (k', w) :: es, k, h => by
    cases hl : lastVal k es with
    | some u => exact ⟨u, by rw [lastVal_cons, hl]⟩
    | none =>
      simp only [List.map_cons, List.mem_cons] at h
      rcases h with h | h
      · exact ⟨w, by rw [lastVal_cons, hl, if_pos h.symm]⟩
      · obtain ⟨v, hv⟩ := lastVal_isSome es k h
        rw [hv] at hl
        cases hl

theorem chunkEntries_shape (d : DocDetails) (chunks : List Str) :
    ∀ e ∈ chunkEntries d chunks, (∃ i, e.1 = chunkId d.id i) ∧ e.2.doc_id = d.id := by
  intro e he
  unfold chunkEntries at he
  rw [List.mem_map] at he
  obtain ⟨p, hp, rfl⟩ := he
  exact ⟨⟨p.1, rfl⟩, rfl⟩

theorem chunkEntries_head_key (d : DocDetails) (c : Str) (rest : List Str) :
    chunkId d.id 0 ∈ (chunkEntries d (c :: rest)).map Prod.fst := by
  unfold chunkEntries
  rw [show (c :: rest).enum = (0, c) :: List.enumFrom 1 rest from rfl]
  simp

theorem mem_metaUpsert (k : Str) (v : MetaRec) :
    ∀ (l : List (Str × MetaRec)) (pr : Str × MetaRec),
      pr ∈ metaUpsert k v l → pr = (k, v) ∨ pr ∈ l
  | [], pr, h => by
    simp only [metaUpsert, List.mem_singleton] at h
    exact Or.inl h
  | (k', v') :: rest, pr, h => by
    unfold metaUpsert at h
    by_cases hk : k' = k
    · rw [if_pos hk] at h
      rcases List.mem_cons.mp h with h | h
      · exact Or.inl h
      · exact Or.inr (List.mem_cons_of_mem _ h)
    · rw [if_neg hk] at h
      rcases List.mem_cons.mp h with h | h
      · exact Or.inr (by rw [h]; exact List.mem_cons_self _ _)
      · rcases mem_metaUpsert k v rest pr h with h | h
        · exact Or.inl h
        · exact Or.inr (List.mem_cons_of_mem _ h)

theorem mem_keys_metaUpsert (k : Str) (v : MetaRec) :
    ∀ l : List (Str × MetaRec), k ∈ (metaUpsert k v l).map Prod.fst
  | [] => by simp [metaUpsert]
  | (k', v') :: rest => by
    unfold metaUpsert
    by_cases hk : k' = k
    · rw [if_pos hk]
      exact List.mem_map_of_mem Prod.fst (List.mem_cons_self _ _)
    · rw [if_neg hk]
      simp only [List.map_cons, List.mem_cons]
      exact Or.inr (mem_keys_metaUpsert k v rest)

theorem metaUpsert_length (k : Str) (v : MetaRec) :
    ∀ l : List (Str × MetaRec),
      (metaUpsert k v l).length = if k ∈ l.map Prod.fst then l.length else l.length + 1
  | [] => by simp [metaUpsert]
  | (k', v') :: rest => by
    unfold metaUpsert
    by_cases hk : k' = k
    · rw [if_pos hk]
      subst hk
      rw [if_pos (List.mem_map_of_mem Prod.fst (List.mem_cons_self _ _))]
      rfl
    · rw [if_neg hk]
      simp only [List.length_cons, metaUpsert_length k v rest, List.map_cons,
        List.mem_cons]
      by_cases hm : k ∈ rest.map Prod.fst
      · simp [hm]
      · have hkk : ¬ (k = k') := fun hh => hk hh.symm
        simp [hm, hkk]

/-! ## Claims C7 and C8 -/

theorem addDocument_ok_eq (s : Store) (d : DocDetails) :
    addDocument s d .ok =
      ({ meta := metaUpsert d.id
            { id := d.id, filename := d.filename.getD [],
              file_type := d.file_type.getD [], page_count := d.page_count.getD 0,
              processed_path := d.processed_path.getD [] } s.meta,
         coll := collAddAll
           (chunkEntries d (if (splitText (d.text.getD []) 1000 200).isEmpty
               then [[]] else splitText (d.text.getD []) 1000 200)) s.coll },
       Except.ok true) := rfl

theorem addDocument_failed_eq (s : Store) (d : DocDetails) (msg : Str) :
    addDocument s d (.failed msg) =
      ({ meta := metaUpsert d.id
            { id := d.id, filename := d.filename.getD [],
              file_type := d.file_type.getD [], page_count := d.page_count.getD 0,
              processed_path := d.processed_path.getD [] } s.meta,
         coll := s.coll },
       Except.error msg) := rfl

theorem chunks_subst_ne_nil (t : Str) :
    (if (splitText t 1000 200).isEmpty then [[]] else splitText t 1000 200) ≠ [] := by
  split
  · simp
  · rename_i h
    simpa [List.isEmpty_iff] using h

theorem exists_added_chunk (d : DocDetails) (chunks : List Str) (hne : chunks ≠ [])
    (m : Str → Option ChunkRec) :
    ∃ k r, collAddAll (chunkEntries d chunks) m k = some r ∧ r.doc_id = d.id := by
  obtain ⟨c, rest, rfl⟩ : ∃ c rest, chunks = c :: rest := by
    cases chunks with
    | nil => exact absurd rfl hne
    | cons c rest => exact ⟨c, rest, rfl⟩
  obtain ⟨v, hv⟩ := lastVal_isSome (chunkEntries d (c :: rest)) (chunkId d.id 0)
    (chunkEntries_head_key d c rest)
  refine ⟨chunkId d.id 0, v, ?_, ?_⟩
  · rw [collAddAll_apply, hv]
  · exact (chunkEntries_shape d (c :: rest) _ (lastVal_mem _ _ _ hv)).2

/-- Claim C7 (amended): when `add_document` returns normally, the
metadata/chunk lockstep invariant is preserved — every registered document
id has at least one chunk (an empty-text document gets the single empty
chunk), and every stored entry still sits under its own chunk id. -/
theorem c7_add_document_inv (s : Store) (d : DocDetails)
    (hInv : StoreInv s) (hWF : StoreWF s) :
    StoreInv (addDocument s d .ok).1 ∧ StoreWF (addDocument s d .ok).1 ∧
    (addDocument s d .ok).2 = Except.ok true := by
  rw [addDocument_ok_eq]
  set chunks := (if (splitText (d.text.getD []) 1000 200).isEmpty then [[]]
    else splitText (d.text.getD []) 1000 200) with hch
  refine ⟨?_, ?_, rfl⟩
  · intro pr hpr
    rcases mem_metaUpsert _ _ _ _ hpr with hpr | hpr
    · subst hpr
      obtain ⟨k, r, hk, hdoc⟩ := exists_added_chunk d chunks
        (hch ▸ chunks_subst_ne_nil _) s.coll
      exact ⟨k, r, hk, hdoc⟩
    · obtain ⟨k, r, hk, hdoc⟩ := hInv pr hpr
      cases hl : lastVal k (chunkEntries d chunks) with
      | none =>
        refine ⟨k, r, ?_, hdoc⟩
        show collAddAll (chunkEntries d chunks) s.coll k = some r
        rw [collAddAll_apply, hl]
        exact hk
      | some v =>
        obtain ⟨⟨i, hki⟩, hvdoc⟩ := chunkEntries_shape d chunks _ (lastVal_mem _ _ _ hl)
        obtain ⟨i0, hk0⟩ := hWF k r hk
        have heq2 : chunkId d.id i = chunkId r.doc_id i0 := by rw [← hki, ← hk0]
        have hdd := (chunkId_inj _ _ _ _ heq2).1
        refine ⟨k, v, ?_, ?_⟩
        · show collAddAll (chunkEntries d chunks) s.coll k = some v
          rw [collAddAll_apply, hl]
        · rw [hvdoc, hdd, hdoc]
  · intro k r hk
    have hk' : collAddAll (chunkEntries d chunks) s.coll k = some r := hk
    rw [collAddAll_apply] at hk'
    cases hl : lastVal k (chunkEntries d chunks) with
    | some v =>
      rw [hl] at hk'
      injection hk' with hk'
      subst hk'
      obtain ⟨⟨i, hki⟩, hvdoc⟩ := chunkEntries_shape d chunks _ (lastVal_mem _ _ _ hl)
      have hki' : k = chunkId d.id i := hki
      have hvdoc' : v.doc_id = d.id := hvdoc
      exact ⟨i, by rw [hki', hvdoc']⟩
    | none =>
      rw [hl] at hk'
      exact hWF k r hk'

/-- Witness for `c7_add_document_inv`: the empty store satisfies both
invariants, and adding a concrete document preserves them. -/
theorem c7_add_document_inv_w :
    StoreInv ⟨[], fun _ => none⟩ ∧ StoreWF ⟨[], fun _ => none⟩ ∧
    (StoreInv (addDocument ⟨[], fun _ => none⟩
        ⟨"D1".toList, some "hi".toList, none, none, none, none⟩ .ok).1 ∧
     StoreWF (addDocument ⟨[], fun _ => none⟩
        ⟨"D1".toList, some "hi".toList, none, none, none, none⟩ .ok).1 ∧
     (addDocument ⟨[], fun _ => none⟩
        ⟨"D1".toList, some "hi".toList, none, none, none, none⟩ .ok).2 =
       Except.ok true) := by
  have h1 : StoreInv ⟨[], fun _ => none⟩ := by
    intro pr hpr
    simp at hpr
  have h2 : StoreWF ⟨[], fun _ => none⟩ := by
    intro k r hk
    simp at hk
  exact ⟨h1, h2, c7_add_document_inv ⟨[], fun _ => none⟩
    ⟨"D1".toList, some "hi".toList, none, none, none, none⟩ h1 h2⟩

/-- Claim C7 is false as stated: when the external chunk write
(`collection.add`) raises, `add_document` re-raises, but the metadata
registration (done first, lines 143-153) is already observable — the
document is registered with no chunk in the index. -/
theorem c7_failed_write_cex :
    (addDocument ⟨[], fun _ => none⟩
        ⟨"D1".toList, some "hello".toList, none, none, none, none⟩
        (.failed "boom".toList)).2 = Except.error "boom".toList ∧
    (addDocument ⟨[], fun _ => none⟩
        ⟨"D1".toList, some "hello".toList, none, none, none, none⟩
        (.failed "boom".toList)).1.meta ≠ [] ∧
    ¬ StoreInv (addDocument ⟨[], fun _ => none⟩
        ⟨"D1".toList, some "hello".toList, none, none, none, none⟩
        (.failed "boom".toList)).1 := by
  refine ⟨rfl, ?_, ?_⟩
  · intro h
    rw [addDocument_failed_eq] at h
    simp [metaUpsert] at h
  · intro h
    obtain ⟨k, r, hk, _⟩ := h ("D1".toList, ⟨"D1".toList, [], [], 0, []⟩)
      (by rw [addDocument_failed_eq]; simp [metaUpsert])
    rw [addDocument_failed_eq] at hk
    simp at hk

/-- Claim C8: re-adding the same document (same id, identical content)
leaves the chunk collection unchanged (chunk ids are deterministic in
`(doc_id, index)`, so the second write stores the identical entries), in
particular the chunks held for that id, and leaves the number of documents
reported by `get_all_documents` unchanged. -/
theorem c8_add_document_idempotent (s : Store) (d : DocDetails) :
    ((addDocument (addDocument s d .ok).1 d .ok).1).coll =
      ((addDocument s d .ok).1).coll ∧
    chunksFor (addDocument (addDocument s d .ok).1 d .ok).1 d.id =
      chunksFor (addDocument s d .ok).1 d.id ∧
    (getAllDocuments (addDocument (addDocument s d .ok).1 d .ok).1).length =
      (getAllDocuments (addDocument s d .ok).1).length := by
  have hcoll : ((addDocument (addDocument s d .ok).1 d .ok).1).coll =
      ((addDocument s d .ok).1).coll := by
    rw [addDocument_ok_eq, addDocument_ok_eq]
    dsimp only
    set es := chunkEntries d (if (splitText (d.text.getD []) 1000 200).isEmpty
      then [[]] else splitText (d.text.getD []) 1000 200) with hes
    funext k
    have h2 : collAddAll es s.coll k =
        match lastVal k es with
        | some v => some v
        | none => s.coll k := collAddAll_apply es _ k
    rw [collAddAll_apply es (collAddAll es s.coll) k]
    cases hl : lastVal k es with
    | some v => rw [h2, hl]
    | none =>
      show collAddAll es s.coll k = collAddAll es s.coll k
      rfl
  refine ⟨hcoll, ?_, ?_⟩
  · funext k
    unfold chunksFor
    rw [hcoll]
  · rw [addDocument_ok_eq, addDocument_ok_eq]
    unfold getAllDocuments
    dsimp only
    rw [List.length_map, List.length_map, metaUpsert_length,
      if_pos (mem_keys_metaUpsert _ _ _)]
